import Mathlib

/-!
Shallow embedding of `pakr-fsm` (src/src/lib.rs): a generic FSM execution
engine.  The Rust trait `FSM` becomes a structure of functions over the
event, response, state and machine-bookkeeping types; the worker loop that
`Reactor::new` spawns on a dedicated thread becomes a recursive function
over the (serialized) list of events the mpsc channel delivers, instrumented
with the trace of `trasnsit`/`respond` calls it makes, so temporal claims
about call order, state threading and termination become statements about
that trace.
-/

/-- The Rust trait `FSM` (lib.rs 74-109).  `E`, `R`, `S` are the associated
types `Event`, `Response`, `State`; `M` is the machine's private internal
bookkeeping, mutated through `&mut self` by `trasnsit` and `respond`.
`new` is `FSM::new` and `defaultState` is the value `F::State::default()`
that the worker uses as the initial state (lib.rs 127).  `trasnsit` returns
the mutated bookkeeping together with `(Option<State>, Option<Response>)`
exactly as in the source; `respond` returns the mutated bookkeeping. -/
structure FSM (E R S M : Type) where
  new : M
  defaultState : S
  trasnsit : M → S → E → M × Option S × Option R
  respond : M → S → Option S → R → M

/-- One trace entry: a call the worker makes into the machine.
`transit old ev next resp` records `fsm.trasnsit(&state, &ev)` returning
`(next, resp)` while the current state was `old` (lib.rs 130);
`respond old next resp` records `fsm.respond(&state, &new_state, &response)`
(lib.rs 132).  Trace order is the temporal order of the calls. -/
inductive WCall (E R S : Type) where
  | transit (old : S) (ev : E) (next : Option S) (resp : Option R)
  | respond (old : S) (next : Option S) (resp : R)

variable {E R S M : Type}

/-- The calls made by one iteration of the worker loop body on event `ev`:
`trasnsit` first, then `respond` if and only if the response is non-empty
(lib.rs 130-133). -/
def eventCalls (f : FSM E R S M) (m : M) (s : S) (ev : E) : List (WCall E R S) :=
  WCall.transit s ev (f.trasnsit m s ev).2.1 (f.trasnsit m s ev).2.2 ::
    (match (f.trasnsit m s ev).2.2 with
      | some r => [WCall.respond s (f.trasnsit m s ev).2.1 r]
      | none => [])

/-- The machine bookkeeping after one loop iteration: `trasnsit` mutates it,
and `respond` mutates it again when a response was produced (lib.rs 130-133). -/
def nextMachine (f : FSM E R S M) (m : M) (s : S) (ev : E) : M :=
  match (f.trasnsit m s ev).2.2 with
  | some r => f.respond (f.trasnsit m s ev).1 s (f.trasnsit m s ev).2.1 r
  | none => (f.trasnsit m s ev).1

/-- The worker loop (lib.rs 129-140) run over the serialized list of events
the channel delivers, returning the trace of calls together with the
outcome.  `Sum.inl (m, s)` means the queue drained without a terminating
transition (the worker is then blocked in `rx.recv()`, or returns `None`
once the channel is closed, lib.rs 140); `Sum.inr resp` means some
`trasnsit` returned `next_state = None` and the worker returned `resp`
immediately (lib.rs 136), without reading further events. -/
def runWorkerT (f : FSM E R S M) :
    M → S → List E → List (WCall E R S) × ((M × S) ⊕ Option R)
  | m, s, [] => ([], Sum.inl (m, s))
  | m, s, ev :: evs =>
    match (f.trasnsit m s ev).2.1 with
    | none => (eventCalls f m s ev, Sum.inr (f.trasnsit m s ev).2.2)
    | some s2 =>
      (eventCalls f m s ev ++ (runWorkerT f (nextMachine f m s ev) s2 evs).1,
        (runWorkerT f (nextMachine f m s ev) s2 evs).2)

/-- Trace of the worker loop. -/
def runTrace (f : FSM E R S M) (m : M) (s : S) (evs : List E) : List (WCall E R S) :=
  (runWorkerT f m s evs).1

/-- Outcome of the worker loop. -/
def runWorker (f : FSM E R S M) (m : M) (s : S) (evs : List E) : (M × S) ⊕ Option R :=
  (runWorkerT f m s evs).2

/-- The result of `Reactor::join` (lib.rs 152) as observed by the caller, for
a reactor whose channel delivered the event list `evs`; `channelClosed` says
whether every sender endpoint was dropped after `evs`.  `some r` means join
returns the normal result `Ok(r)`; `none` means the worker never exits and
join blocks forever. -/
def joinOutcome (f : FSM E R S M) (evs : List E) (channelClosed : Bool) :
    Option (Option R) :=
  match runWorker f f.new f.defaultState evs with
  | Sum.inr r => some r
  | Sum.inl _ => if channelClosed then some none else none

/-- The response of a terminating `trasnsit` call (one that returned
`next_state = None`), when the entry is such a call. -/
def terminating? : WCall E R S → Option (Option R)
  | WCall.transit _ _ none resp => some resp
  | _ => none

/-- The response of the first terminating transition recorded in a trace. -/
def firstTermResponse (tr : List (WCall E R S)) : Option (Option R) :=
  tr.findSome? terminating?

/-- The `trasnsit` calls of a trace, with their arguments and results. -/
def transits (tr : List (WCall E R S)) : List (S × E × Option S × Option R) :=
  tr.filterMap fun c =>
    match c with
    | WCall.transit old ev next resp => some (old, ev, next, resp)
    | WCall.respond _ _ _ => none

/-- Events of the documented example machine (lib.rs 6-10). -/
inductive MyEv where
  | E1
  | E2

/-- States of the documented example machine (lib.rs 12-20); `S1` is the
default. -/
inductive MyState where
  | S1
  | S2

/-- The documented example machine `MyFSM` (lib.rs 22-52): stateless
bookkeeping, transition table as written in the doc example, `respond`
only prints (no bookkeeping change). -/
def myFSM : FSM MyEv String MyState Unit where
  new := ()
  defaultState := MyState.S1
  trasnsit := fun m s e =>
    match s, e with
    | MyState.S1, MyEv.E1 => (m, none, some "Quitting")
    | MyState.S1, MyEv.E2 => (m, some MyState.S2, none)
    | MyState.S2, MyEv.E1 => (m, some MyState.S1, some "S2@E1->S1")
    | MyState.S2, MyEv.E2 => (m, some MyState.S2, some "S2@E2->S2")
  respond := fun m _ _ _ => m

/-- The shape invariant of worker traces (lib.rs 130-133): every `trasnsit`
call that produced a non-empty response is immediately followed by a
`respond` call receiving the same pre-commit old state, the same
`next_state` option and that response — before any further call (so before
the next commit) and before the end of the trace (so before the worker
exits); a `trasnsit` call with an empty response is followed by no
`respond` call; `respond` calls occur nowhere else. -/
inductive GoodTrace : List (WCall E R S) → Prop where
  | nil : GoodTrace []
  | noResp (old : S) (ev : E) (next : Option S) (tr : List (WCall E R S)) :
      GoodTrace tr → GoodTrace (WCall.transit old ev next none :: tr)
  | withResp (old : S) (ev : E) (next : Option S) (r : R) (tr : List (WCall E R S)) :
      GoodTrace tr →
      GoodTrace
        (WCall.transit old ev next (some r) :: WCall.respond old next r :: tr)

/-- Sequential state threading over a list of `trasnsit` calls: the first
call observes the given state, and every call that has a successor returned
`some` of exactly the state its successor observes. -/
def Chained : S → List (S × E × Option S × Option R) → Prop
  | _, [] => True
  | s0, [(old, _, _, _)] => old = s0
  | s0, (old, _, ns, _) :: c2 :: rest =>
    old = s0 ∧ ns = some c2.1 ∧ Chained c2.1 (c2 :: rest)

/-- Whether a trace entry is a terminating `trasnsit` call. -/
def isTermB (c : WCall E R S) : Bool :=
  (terminating? c).isSome

/-- The error of `mpsc::Sender::send`, returned by `Reactor::send`
(lib.rs 155-157) when the receiving end of the channel has been dropped;
it carries the undelivered event back to the caller. -/
structure SendError (E : Type) where
  ev : E

/-- Whether the worker thread has exited, for a reactor whose channel
delivered `evs`, with `channelClosed` telling whether every sender endpoint
was dropped afterwards: the thread exits through a terminating transition
(lib.rs 136) or by draining a closed channel (lib.rs 139-140); otherwise it
stays blocked in `rx.recv()`. -/
def workerExited (f : FSM E R S M) (evs : List E) (channelClosed : Bool) : Bool :=
  (joinOutcome f evs channelClosed).isSome

/-- `Reactor::send` (lib.rs 155-157): it delegates to `mpsc::Sender::send`,
which fails with `SendError(ev)` exactly when the receiver has been dropped
— the receiver is owned by the worker closure, so that happens exactly when
the worker thread has exited — and otherwise appends the event to the
unbounded delivery queue `pending` and returns `Ok(())` immediately, without
waiting for the event to be processed. -/
def Reactor.send (f : FSM E R S M) (evs : List E) (channelClosed : Bool)
    (pending : List E) (ev : E) : Except (SendError E) (List E) :=
  if workerExited f evs channelClosed then Except.error ⟨ev⟩
  else Except.ok (pending ++ [ev])

variable {P : Type}

/-- Fallible variant of the `FSM` trait, used to model panics: a call into
the machine either returns normally or unwinds the worker thread with a
panic payload of type `P` (what `std::thread::JoinHandle::join` reports as
`Err`). -/
structure FSMP (E R S M P : Type) where
  new : M
  defaultState : S
  trasnsit : M → S → E → Except P (M × Option S × Option R)
  respond : M → S → Option S → R → Except P M

/-- One iteration of the worker loop body (lib.rs 130-138) in the fallible
model: `trasnsit`, then `respond` iff the response is non-empty; the first
panic unwinds the worker. -/
def stepP (f : FSMP E R S M P) (m : M) (s : S) (ev : E) :
    Except P (M × Option S × Option R) :=
  match f.trasnsit m s ev with
  | Except.error p => Except.error p
  | Except.ok t =>
    match t.2.2 with
    | some r =>
      match f.respond t.1 s t.2.1 r with
      | Except.error p => Except.error p
      | Except.ok m2 => Except.ok (m2, t.2.1, t.2.2)
    | none => Except.ok t

/-- The worker loop (lib.rs 129-140) in the fallible model: a panic raised
by `trasnsit` or `respond` unwinds the thread, aborting the loop. -/
def runWorkerP (f : FSMP E R S M P) :
    M → S → List E → Except P ((M × S) ⊕ Option R)
  | m, s, [] => Except.ok (Sum.inl (m, s))
  | m, s, ev :: evs =>
    match stepP f m s ev with
    | Except.error p => Except.error p
    | Except.ok t =>
      match t.2.1 with
      | none => Except.ok (Sum.inr t.2.2)
      | some s2 => runWorkerP f t.1 s2 evs

/-- `Reactor::join` (lib.rs 152) in the fallible model, as
`thread::JoinHandle::join` reports it: `none` — the worker never exits and
join blocks forever; `some (Except.ok r)` — the worker exited normally and
join returns `Ok(r)`; `some (Except.error p)` — the worker unwound and join
returns `Err(p)`.  In the whole model an error value is returned only by
`Reactor.send` and here, matching the two error surfaces of the engine. -/
def joinP (f : FSMP E R S M P) (evs : List E) (channelClosed : Bool) :
    Option (Except P (Option R)) :=
  match runWorkerP f f.new f.defaultState evs with
  | Except.error p => some (Except.error p)
  | Except.ok (Sum.inr r) => some (Except.ok r)
  | Except.ok (Sum.inl _) =>
    if channelClosed then some (Except.ok none) else none

/-- Embedding of a panic-free machine into the fallible model. -/
def FSM.toP (P : Type) (f : FSM E R S M) : FSMP E R S M P where
  new := f.new
  defaultState := f.defaultState
  trasnsit := fun m s e => Except.ok (f.trasnsit m s e)
  respond := fun m s ns r => Except.ok (f.respond m s ns r)

/-- A machine exercising the fallible model: `trasnsit` panics on `E1` in
any state, and stays in the current state with no response on `E2`. -/
def faultyFSM : FSMP MyEv String MyState Unit String where
  new := ()
  defaultState := MyState.S1
  trasnsit := fun m s e =>
    match e with
    | MyEv.E1 => Except.error "panic in trasnsit"
    | MyEv.E2 => Except.ok (m, some s, none)
  respond := fun m _ _ _ => Except.ok m

theorem runWorkerT_cons_term (f : FSM E R S M) (m : M) (s : S) (ev : E)
    (evs : List E) (hns : (f.trasnsit m s ev).2.1 = none) :
    runWorkerT f m s (ev :: evs) =
      (eventCalls f m s ev, Sum.inr (f.trasnsit m s ev).2.2) := by
  simp [runWorkerT, hns]

theorem runWorkerT_cons_cont (f : FSM E R S M) (m : M) (s : S) (ev : E)
    (evs : List E) (s2 : S) (hns : (f.trasnsit m s ev).2.1 = some s2) :
    runWorkerT f m s (ev :: evs) =
      (eventCalls f m s ev ++ (runWorkerT f (nextMachine f m s ev) s2 evs).1,
        (runWorkerT f (nextMachine f m s ev) s2 evs).2) := by
  simp [runWorkerT, hns]

theorem eventCalls_none (f : FSM E R S M) (m : M) (s : S) (ev : E)
    (hr : (f.trasnsit m s ev).2.2 = none) :
    eventCalls f m s ev = [WCall.transit s ev (f.trasnsit m s ev).2.1 none] := by
  simp [eventCalls, hr]

theorem eventCalls_some (f : FSM E R S M) (m : M) (s : S) (ev : E) (r : R)
    (hr : (f.trasnsit m s ev).2.2 = some r) :
    eventCalls f m s ev =
      [WCall.transit s ev (f.trasnsit m s ev).2.1 (some r),
        WCall.respond s (f.trasnsit m s ev).2.1 r] := by
  simp [eventCalls, hr]

theorem trace_good (f : FSM E R S M) :
    ∀ (evs : List E) (m : M) (s : S), GoodTrace (runTrace f m s evs) := by
  intro evs
  induction evs with
  | nil => intro m s; exact GoodTrace.nil
  | cons ev evs ih =>
    intro m s
    unfold runTrace
    cases hns : (f.trasnsit m s ev).2.1 with
    | none =>
      rw [runWorkerT_cons_term f m s ev evs hns]
      cases hr : (f.trasnsit m s ev).2.2 with
      | none =>
        rw [eventCalls_none f m s ev hr, hns]
        exact GoodTrace.noResp _ _ _ _ GoodTrace.nil
      | some r =>
        rw [eventCalls_some f m s ev r hr, hns]
        exact GoodTrace.withResp _ _ _ _ _ GoodTrace.nil
    | some s2 =>
      rw [runWorkerT_cons_cont f m s ev evs s2 hns]
      cases hr : (f.trasnsit m s ev).2.2 with
      | none =>
        rw [eventCalls_none f m s ev hr, hns]
        exact GoodTrace.noResp _ _ _ _ (ih _ _)
      | some r =>
        rw [eventCalls_some f m s ev r hr, hns]
        exact GoodTrace.withResp _ _ _ _ _ (ih _ _)

theorem chained_head (s0 : S) (c : S × E × Option S × Option R)
    (l : List (S × E × Option S × Option R)) (h : Chained s0 (c :: l)) :
    c.1 = s0 := by
  obtain ⟨old, ev, ns, r⟩ := c
  cases l with
  | nil => exact h
  | cons c2 rest => exact h.1

theorem transits_append (a b : List (WCall E R S)) :
    transits (a ++ b) = transits a ++ transits b := by
  simp [transits]

theorem transits_eventCalls (f : FSM E R S M) (m : M) (s : S) (ev : E) :
    transits (eventCalls f m s ev) =
      [(s, ev, (f.trasnsit m s ev).2.1, (f.trasnsit m s ev).2.2)] := by
  cases hr : (f.trasnsit m s ev).2.2 <;> simp [eventCalls, transits, hr]

theorem chained_run (f : FSM E R S M) :
    ∀ (evs : List E) (m : M) (s : S), Chained s (transits (runTrace f m s evs)) := by
  intro evs
  induction evs with
  | nil => intro m s; simp [runTrace, runWorkerT, transits, Chained]
  | cons ev evs ih =>
    intro m s
    unfold runTrace
    cases hns : (f.trasnsit m s ev).2.1 with
    | none =>
      rw [runWorkerT_cons_term f m s ev evs hns]
      show Chained s (transits (eventCalls f m s ev))
      rw [transits_eventCalls, hns]
      simp [Chained]
    | some s2 =>
      rw [runWorkerT_cons_cont f m s ev evs s2 hns]
      show Chained s (transits (eventCalls f m s ev ++
        (runWorkerT f (nextMachine f m s ev) s2 evs).1))
      rw [transits_append, transits_eventCalls, hns]
      have ihx := ih (nextMachine f m s ev) s2
      unfold runTrace at ihx
      cases hl : transits (runWorkerT f (nextMachine f m s ev) s2 evs).1 with
      | nil => simp [Chained]
      | cons c2 rest =>
        rw [hl] at ihx
        have hc2 : c2.1 = s2 := chained_head s2 c2 rest ihx
        refine ⟨rfl, ?_, ?_⟩
        · rw [hc2]
        · rw [hc2]; exact ihx

theorem firstTerm_eventCalls_term (f : FSM E R S M) (m : M) (s : S) (ev : E)
    (hns : (f.trasnsit m s ev).2.1 = none) :
    firstTermResponse (eventCalls f m s ev) = some ((f.trasnsit m s ev).2.2) := by
  cases hr : (f.trasnsit m s ev).2.2 with
  | none =>
    rw [eventCalls_none f m s ev hr, hns]
    simp [firstTermResponse, List.findSome?_cons, terminating?]
  | some r =>
    rw [eventCalls_some f m s ev r hr, hns]
    simp [firstTermResponse, List.findSome?_cons, terminating?]

theorem firstTerm_eventCalls_cont (f : FSM E R S M) (m : M) (s : S) (ev : E)
    (s2 : S) (hns : (f.trasnsit m s ev).2.1 = some s2) (tr : List (WCall E R S)) :
    firstTermResponse (eventCalls f m s ev ++ tr) = firstTermResponse tr := by
  cases hr : (f.trasnsit m s ev).2.2 with
  | none =>
    rw [eventCalls_none f m s ev hr, hns]
    simp [firstTermResponse, List.findSome?_cons, terminating?]
  | some r =>
    rw [eventCalls_some f m s ev r hr, hns]
    simp [firstTermResponse, List.findSome?_cons, terminating?]

theorem run_inr_iff_firstTerm (f : FSM E R S M) :
    ∀ (evs : List E) (m : M) (s : S) (r : Option R),
      runWorker f m s evs = Sum.inr r ↔
        firstTermResponse (runTrace f m s evs) = some r := by
  intro evs
  induction evs with
  | nil =>
    intro m s r
    simp [runWorker, runTrace, runWorkerT, firstTermResponse]
  | cons ev evs ih =>
    intro m s r
    unfold runWorker runTrace
    cases hns : (f.trasnsit m s ev).2.1 with
    | none =>
      rw [runWorkerT_cons_term f m s ev evs hns]
      show Sum.inr (f.trasnsit m s ev).2.2 = Sum.inr r ↔
        firstTermResponse (eventCalls f m s ev) = some r
      rw [firstTerm_eventCalls_term f m s ev hns]
      simp
    | some s2 =>
      rw [runWorkerT_cons_cont f m s ev evs s2 hns]
      show (runWorkerT f (nextMachine f m s ev) s2 evs).2 = Sum.inr r ↔
        firstTermResponse (eventCalls f m s ev ++
          (runWorkerT f (nextMachine f m s ev) s2 evs).1) = some r
      rw [firstTerm_eventCalls_cont f m s ev s2 hns]
      exact ih (nextMachine f m s ev) s2 r

theorem run_inl_of_firstTerm_none (f : FSM E R S M) (evs : List E) (m : M)
    (s : S) (h : firstTermResponse (runTrace f m s evs) = none) :
    ∃ p, runWorker f m s evs = Sum.inl p := by
  cases hw : runWorker f m s evs with
  | inl p => exact ⟨p, rfl⟩
  | inr r =>
    rw [(run_inr_iff_firstTerm f evs m s r).mp hw] at h
    exact absurd h (by simp)

theorem run_append_term (f : FSM E R S M) :
    ∀ (evs1 : List E) (m : M) (s : S) (evs2 : List E) (r : Option R),
      runWorker f m s evs1 = Sum.inr r →
      runWorkerT f m s (evs1 ++ evs2) = runWorkerT f m s evs1 := by
  intro evs1
  induction evs1 with
  | nil =>
    intro m s evs2 r h
    exact absurd h (by simp [runWorker, runWorkerT])
  | cons ev evs ih =>
    intro m s evs2 r h
    cases hns : (f.trasnsit m s ev).2.1 with
    | none =>
      rw [List.cons_append, runWorkerT_cons_term f m s ev _ hns,
        runWorkerT_cons_term f m s ev _ hns]
    | some s2 =>
      have h2 : runWorker f (nextMachine f m s ev) s2 evs = Sum.inr r := by
        unfold runWorker
        unfold runWorker at h
        rw [runWorkerT_cons_cont f m s ev evs s2 hns] at h
        exact h
      rw [List.cons_append, runWorkerT_cons_cont f m s ev _ s2 hns,
        runWorkerT_cons_cont f m s ev evs s2 hns, ih _ _ evs2 r h2]

theorem trace_term_count (f : FSM E R S M) :
    ∀ (evs : List E) (m : M) (s : S),
      (runTrace f m s evs).countP isTermB ≤ 1 := by
  intro evs
  induction evs with
  | nil => intro m s; simp [runTrace, runWorkerT]
  | cons ev evs ih =>
    intro m s
    unfold runTrace
    cases hns : (f.trasnsit m s ev).2.1 with
    | none =>
      rw [runWorkerT_cons_term f m s ev evs hns]
      show (eventCalls f m s ev).countP isTermB ≤ 1
      cases hr : (f.trasnsit m s ev).2.2 with
      | none =>
        rw [eventCalls_none f m s ev hr, hns]
        simp [List.countP_cons, isTermB, terminating?]
      | some r =>
        rw [eventCalls_some f m s ev r hr, hns]
        simp [List.countP_cons, isTermB, terminating?]
    | some s2 =>
      rw [runWorkerT_cons_cont f m s ev evs s2 hns]
      show (eventCalls f m s ev ++
        (runWorkerT f (nextMachine f m s ev) s2 evs).1).countP isTermB ≤ 1
      rw [List.countP_append]
      have hev : (eventCalls f m s ev).countP isTermB = 0 := by
        cases hr : (f.trasnsit m s ev).2.2 with
        | none =>
          rw [eventCalls_none f m s ev hr, hns]
          simp [List.countP_cons, isTermB, terminating?]
        | some r =>
          rw [eventCalls_some f m s ev r hr, hns]
          simp [List.countP_cons, isTermB, terminating?]
      rw [hev]
      simpa using ih (nextMachine f m s ev) s2

theorem good_respond_pred {tr : List (WCall E R S)} (hg : GoodTrace tr) :
    ∀ (pre : List (WCall E R S)) (old : S) (ns : Option S) (r : R)
      (post : List (WCall E R S)),
      tr = pre ++ WCall.respond old ns r :: post →
      ∃ pre2 e, pre = pre2 ++ [WCall.transit old e ns (some r)] := by
  induction hg with
  | nil =>
    intro pre old ns r post heq
    exact absurd heq (by simp)
  | noResp old1 ev1 ns1 tr1 h1 ih =>
    intro pre old ns r post heq
    cases pre with
    | nil => simp at heq
    | cons a pre1 =>
      rw [List.cons_append] at heq
      injection heq with ha htl
      obtain ⟨pre2, e, hpre⟩ := ih pre1 old ns r post htl
      exact ⟨a :: pre2, e, by rw [List.cons_append, hpre]⟩
  | withResp old1 ev1 ns1 r1 tr1 h1 ih =>
    intro pre old ns r post heq
    cases pre with
    | nil => simp at heq
    | cons a pre1 =>
      rw [List.cons_append] at heq
      injection heq with ha htl
      cases pre1 with
      | nil =>
        rw [List.nil_append] at htl
        injection htl with hb htl2
        injection hb with hold hns2 hr2
        exact ⟨[], ev1, by rw [← ha, hold, hns2, hr2]; rfl⟩
      | cons b pre2x =>
        rw [List.cons_append] at htl
        injection htl with hb htl2
        obtain ⟨pre2, e, hpre⟩ := ih pre2x old ns r post htl2
        exact ⟨a :: b :: pre2, e, by
          rw [List.cons_append, List.cons_append, hpre]⟩

theorem stepP_toP (f : FSM E R S M) (m : M) (s : S) (ev : E) :
    stepP (FSM.toP P f) m s ev =
      Except.ok (nextMachine f m s ev, (f.trasnsit m s ev).2.1,
        (f.trasnsit m s ev).2.2) := by
  cases hr : (f.trasnsit m s ev).2.2 with
  | none =>
    simp [stepP, FSM.toP, nextMachine, hr]
    rw [← hr]
  | some r => simp [stepP, FSM.toP, nextMachine, hr]

theorem runWorkerP_toP (f : FSM E R S M) :
    ∀ (evs : List E) (m : M) (s : S),
      runWorkerP (FSM.toP P f) m s evs = Except.ok (runWorker f m s evs) := by
  intro evs
  induction evs with
  | nil => intro m s; simp [runWorkerP, runWorker, runWorkerT]
  | cons ev evs ih =>
    intro m s
    cases hns : (f.trasnsit m s ev).2.1 with
    | none =>
      rw [show runWorker f m s (ev :: evs) = Sum.inr (f.trasnsit m s ev).2.2 by
        unfold runWorker; rw [runWorkerT_cons_term f m s ev evs hns]]
      simp [runWorkerP, stepP_toP, hns]
    | some s2 =>
      rw [show runWorker f m s (ev :: evs) =
          runWorker f (nextMachine f m s ev) s2 evs by
        unfold runWorker; rw [runWorkerT_cons_cont f m s ev evs s2 hns]]
      simp [runWorkerP, stepP_toP, hns, ih]

theorem runWorkerP_error_iff (f : FSMP E R S M P) :
    ∀ (evs : List E) (m : M) (s : S) (p : P),
      runWorkerP f m s evs = Except.error p ↔
        ∃ pre ev post m2 s2, evs = pre ++ ev :: post ∧
          runWorkerP f m s pre = Except.ok (Sum.inl (m2, s2)) ∧
          stepP f m2 s2 ev = Except.error p := by
  intro evs
  induction evs with
  | nil =>
    intro m s p
    constructor
    · intro h
      exact absurd h (by simp [runWorkerP])
    · rintro ⟨pre, ev2, post, m2, s2, heq, hrun, hstep2⟩
      rcases pre with _ | ⟨a, pre1⟩ <;> simp at heq
  | cons ev evs ih =>
    intro m s p
    cases hst : stepP f m s ev with
    | error p0 =>
      constructor
      · intro h
        simp [runWorkerP, hst] at h
        refine ⟨[], ev, evs, m, s, rfl, rfl, ?_⟩
        rw [hst, h]
      · rintro ⟨pre, ev2, post, m2, s2, heq, hrun, hstep2⟩
        cases pre with
        | nil =>
          rw [List.nil_append] at heq
          injection heq with he htl
          simp [runWorkerP] at hrun
          obtain ⟨hm, hs⟩ := hrun
          rw [← hm, ← hs, ← he] at hstep2
          rw [hst] at hstep2
          injection hstep2 with hp
          simp [runWorkerP, hst, hp]
        | cons a pre1 =>
          rw [List.cons_append] at heq
          injection heq with he htl
          rw [← he] at hrun
          simp [runWorkerP, hst] at hrun
    | ok t =>
      cases hns : t.2.1 with
      | none =>
        constructor
        · intro h
          simp [runWorkerP, hst, hns] at h
        · rintro ⟨pre, ev2, post, m2, s2, heq, hrun, hstep2⟩
          cases pre with
          | nil =>
            rw [List.nil_append] at heq
            injection heq with he htl
            simp [runWorkerP] at hrun
            obtain ⟨hm, hs⟩ := hrun
            rw [← hm, ← hs, ← he, hst] at hstep2
            exact absurd hstep2 (by simp)
          | cons a pre1 =>
            rw [List.cons_append] at heq
            injection heq with he htl
            rw [← he] at hrun
            simp [runWorkerP, hst, hns] at hrun
      | some s2 =>
        constructor
        · intro h
          have h2 : runWorkerP f t.1 s2 evs = Except.error p := by
            simpa [runWorkerP, hst, hns] using h
          obtain ⟨pre, ev2, post, m2, s2x, heq, hrun, hstep2⟩ :=
            (ih t.1 s2 p).mp h2
          refine ⟨ev :: pre, ev2, post, m2, s2x, ?_, ?_, hstep2⟩
          · rw [List.cons_append, ← heq]
          · simpa [runWorkerP, hst, hns] using hrun
        · rintro ⟨pre, ev2, post, m2, s2x, heq, hrun, hstep2⟩
          cases pre with
          | nil =>
            rw [List.nil_append] at heq
            injection heq with he htl
            simp [runWorkerP] at hrun
            obtain ⟨hm, hs⟩ := hrun
            rw [← hm, ← hs, ← he, hst] at hstep2
            exact absurd hstep2 (by simp)
          | cons a pre1 =>
            rw [List.cons_append] at heq
            injection heq with he htl
            rw [← he] at hrun
            have hrun2 : runWorkerP f t.1 s2 pre1 =
                Except.ok (Sum.inl (m2, s2x)) := by
              simpa [runWorkerP, hst, hns] using hrun
            have : runWorkerP f t.1 s2 evs = Except.error p :=
              (ih t.1 s2 p).mpr ⟨pre1, ev2, post, m2, s2x, htl, hrun2, hstep2⟩
            simpa [runWorkerP, hst, hns] using this

theorem joinP_error_iff (f : FSMP E R S M P) (evs : List E)
    (channelClosed : Bool) (p : P) :
    joinP f evs channelClosed = some (Except.error p) ↔
      runWorkerP f f.new f.defaultState evs = Except.error p := by
  unfold joinP
  cases hw : runWorkerP f f.new f.defaultState evs with
  | error p0 => simp
  | ok v =>
    cases v with
    | inl pr => cases channelClosed <;> simp
    | inr r => simp

theorem joinP_toP (g : FSM E R S M) (evs : List E) (channelClosed : Bool) :
    joinP (FSM.toP P g) evs channelClosed =
      Option.map Except.ok (joinOutcome g evs channelClosed) := by
  unfold joinP joinOutcome
  rw [show (FSM.toP P g).new = g.new from rfl,
    show (FSM.toP P g).defaultState = g.defaultState from rfl,
    runWorkerP_toP g evs g.new g.defaultState]
  cases hval : runWorker g g.new g.defaultState evs with
  | inl pr => cases channelClosed <;> simp
  | inr r => simp

/-- C1: for every finite sequence of events processed by the worker, if some
transition call is the first to return `next_state = None` together with
response `r` (`r` being `Some` or `None`), then `join` returns the normal
result `r` as the Reactor's terminal result, whether or not the sender
endpoints were dropped: the response of that terminating transition is
exactly what `join` yields. -/
theorem join_returns_first_termination_response (f : FSM E R S M)
    (evs : List E) (r : Option R) (channelClosed : Bool)
    (h : firstTermResponse (runTrace f f.new f.defaultState evs) = some r) :
    joinOutcome f evs channelClosed = some r := by
  have hw := (run_inr_iff_firstTerm f evs f.new f.defaultState r).mpr h
  unfold joinOutcome
  rw [hw]

/-- Witness for C1 on the documented example machine: the fourth event is
the first (and only) terminating transition, with response
`Some "Quitting")`, and `join` yields exactly that response. -/
theorem join_returns_first_termination_response_witness :
    firstTermResponse (runTrace myFSM myFSM.new myFSM.defaultState
        [MyEv.E2, MyEv.E2, MyEv.E1, MyEv.E1]) = some (some "Quitting") ∧
    joinOutcome myFSM [MyEv.E2, MyEv.E2, MyEv.E1, MyEv.E1] false =
      some (some "Quitting") :=
  ⟨rfl, join_returns_first_termination_response myFSM
    [MyEv.E2, MyEv.E2, MyEv.E1, MyEv.E1] (some "Quitting") false rfl⟩

/-- C2: for every event the worker processes, the notification hook
(`respond`) is called iff the transition returned a non-empty response;
when called it receives the pre-commit old state, the `next_state` option
exactly as returned by the transition, and the response, and the call
happens immediately after its transition — before the new state is
committed and, on a terminating transition, before the worker exits, so the
hook fires even on terminating transitions that carry a response. -/
theorem respond_called_iff_nonempty_response (f : FSM E R S M) (evs : List E) :
    GoodTrace (runTrace f f.new f.defaultState evs) :=
  trace_good f evs f.new f.defaultState

/-- C3: state is threaded strictly sequentially — the first `trasnsit` call
observes `State::default()` and every later call observes exactly the
`next_state` committed by its predecessor; moreover every `respond`
(notify) call is immediately preceded by its `trasnsit` call and receives
that call's old state, so the old state seen by notify on call k equals the
`next_state` returned by transition call k-1 (or the default state for
k = 1). -/
theorem state_threading (f : FSM E R S M) (evs : List E) :
    Chained f.defaultState (transits (runTrace f f.new f.defaultState evs)) ∧
    ∀ (pre : List (WCall E R S)) (old : S) (ns : Option S) (r : R)
      (post : List (WCall E R S)),
      runTrace f f.new f.defaultState evs =
        pre ++ WCall.respond old ns r :: post →
      ∃ pre2 e, pre = pre2 ++ [WCall.transit old e ns (some r)] :=
  ⟨chained_run f evs f.new f.defaultState,
    fun pre old ns r post heq =>
      good_respond_pred (trace_good f evs f.new f.defaultState)
        pre old ns r post heq⟩

/-- Witness for C3 on the documented example machine with events
`E2, E2`: the transit chain starts at the default state `S1`, and the one
`respond` call in the trace is immediately preceded by its transition,
sharing its old state `S2`. -/
theorem state_threading_witness :
    Chained myFSM.defaultState (transits (runTrace myFSM myFSM.new
      myFSM.defaultState [MyEv.E2, MyEv.E2])) ∧
    ∃ pre2 e,
      [WCall.transit MyState.S1 MyEv.E2 (some MyState.S2) none,
        WCall.transit MyState.S2 MyEv.E2 (some MyState.S2)
          (some "S2@E2->S2")] =
        pre2 ++ [WCall.transit MyState.S2 e (some MyState.S2)
          (some "S2@E2->S2")] :=
  ⟨(state_threading myFSM [MyEv.E2, MyEv.E2]).1,
    (state_threading myFSM [MyEv.E2, MyEv.E2]).2
      [WCall.transit MyState.S1 MyEv.E2 (some MyState.S2) none,
        WCall.transit MyState.S2 MyEv.E2 (some MyState.S2)
          (some "S2@E2->S2")]
      MyState.S2 (some MyState.S2) "S2@E2->S2" [] rfl⟩

/-- C4: once a transition returns `next_state = None` the machine is
terminated: appending further events (whether still enqueued at termination
or enqueued afterwards) changes neither the trace nor the outcome of the
worker — no such event is ever delivered to the transition function — and
every run's trace contains at most one terminating transition, so the
machine terminates at most once per Reactor. -/
theorem termination_drops_pending_events (f : FSM E R S M)
    (evs1 evs2 : List E) (r : Option R)
    (h : runWorker f f.new f.defaultState evs1 = Sum.inr r) :
    runWorkerT f f.new f.defaultState (evs1 ++ evs2) =
      runWorkerT f f.new f.defaultState evs1 ∧
    (runTrace f f.new f.defaultState (evs1 ++ evs2)).countP isTermB ≤ 1 :=
  ⟨run_append_term f evs1 f.new f.defaultState evs2 r h,
    trace_term_count f (evs1 ++ evs2) f.new f.defaultState⟩

/-- Witness for C4 on the documented example machine: `E1` terminates the
machine from the default state, and a pending `E2` is dropped without
being processed. -/
theorem termination_drops_pending_events_witness :
    runWorker myFSM myFSM.new myFSM.defaultState [MyEv.E1] =
      Sum.inr (some "Quitting") ∧
    (runWorkerT myFSM myFSM.new myFSM.defaultState [MyEv.E1, MyEv.E2] =
      runWorkerT myFSM myFSM.new myFSM.defaultState [MyEv.E1] ∧
    (runTrace myFSM myFSM.new myFSM.defaultState
      [MyEv.E1, MyEv.E2]).countP isTermB ≤ 1) :=
  ⟨rfl, termination_drops_pending_events myFSM [MyEv.E1] [MyEv.E2]
    (some "Quitting") rfl⟩

/-- C5: if `send(e)` is invoked after the worker has exited (the receiving
end of the channel has been dropped), it synchronously returns a delivery
error containing the original event unchanged; if the worker is still
alive, `send(e)` returns `Ok`, merely appending the event to the unbounded
queue without waiting for it to be processed. -/
theorem send_after_worker_exit_errors (f : FSM E R S M) (evs : List E)
    (channelClosed : Bool) (pending : List E) (ev : E) :
    (workerExited f evs channelClosed = true →
      Reactor.send f evs channelClosed pending ev = Except.error ⟨ev⟩) ∧
    (workerExited f evs channelClosed = false →
      Reactor.send f evs channelClosed pending ev =
        Except.ok (pending ++ [ev])) := by
  constructor
  · intro h
    simp [Reactor.send, h]
  · intro h
    simp [Reactor.send, h]

/-- Witness for C5: after the worker exited through the terminating event
`E1`, sending `E2` yields the delivery error carrying `E2`; with the worker
still alive after `E2` (no termination, channel open), sending `E1`
succeeds and the event is enqueued. -/
theorem send_after_worker_exit_errors_witness :
    Reactor.send myFSM [MyEv.E1] false [] MyEv.E2 =
      Except.error ⟨MyEv.E2⟩ ∧
    Reactor.send myFSM [MyEv.E2] false [] MyEv.E1 = Except.ok [MyEv.E1] :=
  ⟨(send_after_worker_exit_errors myFSM [MyEv.E1] false [] MyEv.E2).1 rfl,
    (send_after_worker_exit_errors myFSM [MyEv.E2] false [] MyEv.E1).2 rfl⟩

/-- C6 counterexample: on the documented machine the event `E1` terminates
the machine (its transition returns `next_state = None`), which makes the
worker exit and drop the channel's receiving end; a subsequent `send` of
`E2` then reports a delivery error carrying the event instead of succeeding
silently — refuting the claim that every submission after termination
succeeds. -/
theorem send_after_termination_not_silent_cx :
    firstTermResponse (runTrace myFSM myFSM.new myFSM.defaultState
        [MyEv.E1]) = some (some "Quitting") ∧
    Reactor.send myFSM [MyEv.E1] false [] MyEv.E2 =
      Except.error ⟨MyEv.E2⟩ :=
  ⟨rfl, rfl⟩

/-- C6 amended: an event submitted after the machine has terminated is
never processed by any transition logic — appending it leaves the worker's
trace unchanged — but the submission does not succeed silently: since the
terminating transition makes the worker exit (dropping the channel's
receiving end), a subsequent `send` reports a delivery error carrying the
event back to the caller. -/
theorem post_termination_events_never_processed (f : FSM E R S M)
    (evs1 evs2 : List E) (r : Option R) (channelClosed : Bool)
    (pending : List E) (ev : E)
    (h : runWorker f f.new f.defaultState evs1 = Sum.inr r) :
    runTrace f f.new f.defaultState (evs1 ++ evs2) =
      runTrace f f.new f.defaultState evs1 ∧
    Reactor.send f evs1 channelClosed pending ev = Except.error ⟨ev⟩ := by
  constructor
  · unfold runTrace
    rw [run_append_term f evs1 f.new f.defaultState evs2 r h]
  · have hex : workerExited f evs1 channelClosed = true := by
      simp [workerExited, joinOutcome, h]
    simp [Reactor.send, hex]

/-- Witness for the amended C6: `E1` terminates the documented machine, the
late `E2` never reaches `trasnsit`, and sending after the worker exited
errors. -/
theorem post_termination_events_never_processed_witness :
    runWorker myFSM myFSM.new myFSM.defaultState [MyEv.E1] =
      Sum.inr (some "Quitting") ∧
    (runTrace myFSM myFSM.new myFSM.defaultState [MyEv.E1, MyEv.E2] =
      runTrace myFSM myFSM.new myFSM.defaultState [MyEv.E1] ∧
    Reactor.send myFSM [MyEv.E1] false [] MyEv.E2 =
      Except.error ⟨MyEv.E2⟩) :=
  ⟨rfl, post_termination_events_never_processed myFSM [MyEv.E1] [MyEv.E2]
    (some "Quitting") false [] MyEv.E2 rfl⟩

/-- C7: `join` returns the abnormal result `Err(p)` exactly when the
worker's execution unwound because a fault `p` was raised while processing
some event — i.e. iff the event stream splits as `pre ++ ev :: post` where
the worker processes `pre` without terminating and the loop body for `ev`
(`trasnsit`, then `respond` on a non-empty response) panics with `p`; and
on a panic-free machine `join` returns the normal `Ok` result carrying
`Option<Response>`, exactly the pure join outcome.  In the model an error
value is returned only by `Reactor.send` and `joinP`, matching the claim
that engine errors surface nowhere but `send` and `join`; `join` consuming
the Reactor is Rust ownership, visible in the signature `fn join(self)`. -/
theorem join_err_iff_worker_fault (f : FSMP E R S M P) (g : FSM E R S M)
    (evs : List E) (channelClosed : Bool) (p : P) :
    (joinP f evs channelClosed = some (Except.error p) ↔
      ∃ pre ev post m s, evs = pre ++ ev :: post ∧
        runWorkerP f f.new f.defaultState pre =
          Except.ok (Sum.inl (m, s)) ∧
        stepP f m s ev = Except.error p) ∧
    joinP (FSM.toP P g) evs channelClosed =
      Option.map Except.ok (joinOutcome g evs channelClosed) :=
  ⟨(joinP_error_iff f evs channelClosed p).trans
      (runWorkerP_error_iff f evs f.new f.defaultState p),
    joinP_toP g evs channelClosed⟩

/-- Witness for C7: on the faulting machine, the worker processes `E2`
normally and unwinds on `E1`, and `join` reports exactly that fault as its
`Err` result; on the panic-free documented machine, `join` returns the
normal `Ok` outcome of the pure model. -/
theorem join_err_iff_worker_fault_witness :
    joinP faultyFSM [MyEv.E2, MyEv.E1] false =
      some (Except.error "panic in trasnsit") ∧
    joinP (FSM.toP String myFSM) [MyEv.E2] false =
      Option.map Except.ok (joinOutcome myFSM [MyEv.E2] false) :=
  ⟨(join_err_iff_worker_fault faultyFSM myFSM [MyEv.E2, MyEv.E1] false
      "panic in trasnsit").1.mpr
      ⟨[MyEv.E2], MyEv.E1, [], (), MyState.S1, rfl, rfl, rfl⟩,
    (join_err_iff_worker_fault faultyFSM myFSM [MyEv.E2] false
      "panic in trasnsit").2⟩

/-- C8: if every submission endpoint is dropped (`channelClosed = true`)
without any transition ever returning `next_state = None`, the worker
drains its queue, observes the closed channel, and exits producing no
response: `join` returns the normal result `None`. -/
theorem channel_exhaustion_join_none (f : FSM E R S M) (evs : List E)
    (h : firstTermResponse (runTrace f f.new f.defaultState evs) = none) :
    joinOutcome f evs true = some none := by
  obtain ⟨pr, hw⟩ := run_inl_of_firstTerm_none f evs f.new f.defaultState h
  unfold joinOutcome
  rw [hw]
  rfl

/-- Witness for C8: the documented machine never terminates on the single
event `E2`, and join after dropping all senders returns `None`. -/
theorem channel_exhaustion_join_none_witness :
    firstTermResponse (runTrace myFSM myFSM.new myFSM.defaultState
        [MyEv.E2]) = none ∧
    joinOutcome myFSM [MyEv.E2] true = some none :=
  ⟨rfl, channel_exhaustion_join_none myFSM [MyEv.E2] rfl⟩

/-- C9: on the documented example machine, submitting `E2, E2, E1, E1`
yields the per-transition responses `None, "S2@E2->S2", "S2@E1->S1",
"Quitting"` in order (with old and next states following the documented
table), the fourth event terminates the machine (`next_state = None`), and
`join` returns `Some("Quitting")`. -/
theorem documented_example_scenario :
    transits (runTrace myFSM myFSM.new myFSM.defaultState
        [MyEv.E2, MyEv.E2, MyEv.E1, MyEv.E1]) =
      [(MyState.S1, MyEv.E2, some MyState.S2, none),
        (MyState.S2, MyEv.E2, some MyState.S2, some "S2@E2->S2"),
        (MyState.S2, MyEv.E1, some MyState.S1, some "S2@E1->S1"),
        (MyState.S1, MyEv.E1, none, some "Quitting")] ∧
    joinOutcome myFSM [MyEv.E2, MyEv.E2, MyEv.E1, MyEv.E1] false =
      some (some "Quitting") :=
  ⟨rfl, rfl⟩

/-- C10: while a Reactor value exists — including for the whole duration of
a `join` call, since the Reactor's own `chan` sender is a field dropped
only after `join` returns — the delivery channel stays open, which the
model renders as `channelClosed = false`.  With the channel open, `join`
returns exactly when a terminating transition occurred, yielding its
response: the worker's channel-exhaustion exit (lib.rs 140) is unreachable
through the public Reactor API alone, and `join` on a machine that never
takes a terminating transition blocks forever (outcome `none`). -/
theorem open_channel_join_iff_termination (f : FSM E R S M) (evs : List E) :
    joinOutcome f evs false =
      firstTermResponse (runTrace f f.new f.defaultState evs) := by
  unfold joinOutcome
  cases hw : runWorker f f.new f.defaultState evs with
  | inl pr =>
    cases hf : firstTermResponse (runTrace f f.new f.defaultState evs) with
    | none => simp
    | some r =>
      have h2 := (run_inr_iff_firstTerm f evs f.new f.defaultState r).mpr hf
      rw [hw] at h2
      exact absurd h2 (by simp)
  | inr r =>
    rw [(run_inr_iff_firstTerm f evs f.new f.defaultState r).mp hw]
